import Mathlib

/-!
Verification of the Windows child-process controller in `process_win.hpp`.

The controller (`class Process`) spawns a child process with redirected
stdin/stdout pipes, reads line-oriented output with a deadline, writes raw
text to the child's stdin, and tears the child down, keeping a process-wide
registry (`fast_chess::process_list`) of live child handles.

The embedding below is a direct translation of the member functions:

* `Process.init`        — `Process::init` (lines 31-71)
* `Process.alive`       — `Process::alive` (lines 73-78)
* `Process.killProcess` — `Process::killProcess` (lines 87-108)
* `Process.restart`     — `Process::restart` (lines 110-113)
* `Process.procChars`   — the per-buffer character loop of the async lambda in
                          `Process::readProcess` (lines 144-167)
* `Process.readLoop`    — the `while (true)` `ReadFile` loop of that lambda
                          (lines 134-168)
* `Process.readProcess` — `Process::readProcess` (lines 120-179)
* `Process.writeProcess`— `Process::writeProcess` (lines 181-193)

OS effects are made explicit: handles are natural numbers, the outcome of a
`CreateProcessA` call is an `Option Nat` argument (`some h` = success with
process handle `h`, `none` = failure; the code never inspects this outcome),
liveness (`GetExitCodeProcess(...) == STILL_ACTIVE`) is a boolean component of
the state, and the sequence of `ReadFile` results delivered to the background
read task is a list of `Option (List Char)` (`none` = a failing `ReadFile`,
`some chunk` = a successful read of `chunk`).  The shared
`fast_chess::process_list` (a `ThreadVector<HANDLE>`, whose implementation is
not part of this repository) is modelled from the spec as a collection with
`push` = append and `remove` = removal of the handle.
-/

namespace Process

/-- Result of a read, as declared by `iprocess.hpp` (spec §3): one of `OK`
(terminator line observed), `ERR` (I/O failure), `TIMEOUT` (deadline elapsed).
-/
inductive Status where
  | OK
  | ERR
  | TIMEOUT
deriving DecidableEq

/-- A line-terminating character: the reader treats `'\n'` and `'\r'`
uniformly (`buffer[i] != '\n' && buffer[i] != '\r'`, line 148). -/
def isTerm (c : Char) : Bool := c == '\n' || c == '\r'

/-- All maximal runs of non-terminator characters of a byte sequence, in
order, including empty runs and the trailing (possibly empty) run.  Every
terminator character is a boundary, so the pair `\r\n` contributes one empty
run between its two boundaries. -/
def splitSegs : List Char → List (List Char)
  | [] => [[]]
  | c :: rest =>
    if isTerm c then [] :: splitSegs rest
    else
      match splitSegs rest with
      | [] => [[c]]
      | s :: ss => (c :: s) :: ss

/-- The trailing run of non-terminator characters of a byte sequence (the
partial line still sitting in `currentLine` after the sequence is consumed). -/
def lastSegOf (cs : List Char) : List Char := (splitSegs cs).getLastD []

/-- Modelled from the spec's words (claim C7): "the non-empty maximal runs of
characters delimited by line terminators", in the order produced.  A trailing
run that is not followed by a terminator is not yet delimited, hence not a
line; since every run but the last is followed by a terminator, the delimited
runs are exactly `(splitSegs cs).dropLast`, and the empty ones are dropped. -/
def splitLinesSpec (cs : List Char) : List (List Char) :=
  ((splitSegs cs).dropLast).filter (fun l => !l.isEmpty)

/-- `cs` contains no line-terminating character. -/
def noTerm (cs : List Char) : Bool := cs.all (fun c => !isTerm c)

/-- Prepend `s` to the first segment of a segmentation (helper for reasoning
about `splitSegs` on an append). -/
def mergeHead (s : List Char) : List (List Char) → List (List Char)
  | [] => [s]
  | h :: tl => (s ++ h) :: tl

/-- State of the character loop of the async lambda (lines 144-167) after it
processed one `ReadFile` buffer: whether it returned `Status::OK` (`matched`),
the unprocessed rest of the buffer, the `currentLine` accumulator, and the
`lines` vector. -/
structure PCResult where
  matched : Bool
  remaining : List Char
  currentLine : List Char
  lines : List (List Char)
deriving DecidableEq

/-- The character loop of the async lambda (lines 144-167), iterating over one
`ReadFile` buffer: a non-terminator character is appended to `currentLine`; a
terminator with an empty `currentLine` is skipped (`don't add empty lines`);
otherwise the line is logged and pushed onto `lines`, and if it starts with
`last_word` (`currentLine.rfind(last_word, 0) == 0` is exactly the
starts-with test) the lambda returns `Status::OK` at once, leaving the rest of
the buffer unprocessed; otherwise `currentLine` is cleared. -/
def procChars (lw : List Char) : List Char → List Char → List (List Char) → PCResult
  | [], cur, lines => ⟨false, [], cur, lines⟩
  | c :: rest, cur, lines =>
    if isTerm c = false then procChars lw rest (cur ++ [c]) lines
    else if cur.isEmpty then procChars lw rest cur lines
    else if lw.isPrefixOf cur then ⟨true, rest, cur, lines ++ [cur]⟩
    else procChars lw rest [] (lines ++ [cur])

/-- Outcome of the `while (true)` loop of the async lambda over a sequence of
`ReadFile` results: `status = some s` when the lambda returned `s`,
`status = none` when the sequence is exhausted with the lambda still blocked
in the next `ReadFile`. -/
structure RLResult where
  status : Option Status
  lines : List (List Char)
deriving DecidableEq

/-- The `while (true)` loop of the async lambda (lines 134-168).  A failing
`ReadFile` (event `none`) makes the lambda return `Status::ERR` (line 136); a
successful read hands the buffer to the character loop, which either returns
`Status::OK` or leaves the loop to issue the next `ReadFile`.  A zero-byte
read is `some []`, on which the character loop is a no-op — the same effect as
the `if (bytesRead <= 0) continue;` at line 139. -/
def readLoop (lw : List Char) : List (Option (List Char)) → List Char → List (List Char) → RLResult
  | [], _, lines => ⟨none, lines⟩
  | none :: _, _, lines => ⟨some Status.ERR, lines⟩
  | some chunk :: rest, cur, lines =>
    let r := procChars lw chunk cur lines
    if r.matched then ⟨some Status.OK, r.lines⟩
    else readLoop lw rest r.currentLine r.lines

/-- `Process::readProcess` (lines 120-179).  `outLines0` is the caller's
vector, discarded by `lines.clear()` at line 124 — the read starts from `[]`
whatever was in it.  `events` abstracts the `ReadFile` results the background
task has processed by the moment `readFuture.wait_for(threshold)` returns:
everything the child's stdout delivered to the loop within the deadline (for
`threshold = 0`, `wait_for` polls and returns immediately, so `events` is what
was processed instantly — typically nothing).  The caller inspects only the
`future_status`: if the wait timed out it returns `Status::TIMEOUT` (line
175), otherwise it returns `Status::OK` (line 178) — the lambda's own status
value is never retrieved, and `threshold` itself is consulted nowhere else. -/
def readProcess (threshold : Nat) (events : List (Option (List Char))) (lw : List Char)
    (outLines0 : List (List Char)) : Status × List (List Char) :=
  let lines0 : List (List Char) := outLines0.take 0
  let r := readLoop lw events [] lines0
  match r.status with
  | some _ => (Status.OK, r.lines)
  | none => (Status.TIMEOUT, r.lines)

/-- State of one `Process` controller together with the OS facts it interacts
with.  Fields named as in the source; `hProcess` is `pi_.hProcess`,
`still_active` models `GetExitCodeProcess(pi_.hProcess, ..) == STILL_ACTIVE`,
and `process_list` models the shared registry `fast_chess::process_list`. -/
structure ProcState where
  command_ : String
  args_ : String
  log_name_ : String
  is_initalized_ : Bool
  hProcess : Nat
  child_std_out_ : Nat
  child_std_in_ : Nat
  still_active : Bool
  process_list : List Nat
deriving DecidableEq

/-- `Process::init` (lines 31-71).  Stores the identity fields, creates the
pipes (`stdout_read`, `stdin_write` are the endpoints the OS hands back;
`CreatePipe`'s result is not checked), and calls `CreateProcessA` — whose
result `spawn` is not checked either: on failure (`spawn = none`) the
value-initialized `pi_` keeps `hProcess = 0` and the child is not running,
yet the code still pushes `pi_.hProcess` onto `fast_chess::process_list` and
sets `is_initalized_ = true` (lines 69-70). -/
def init (st : ProcState) (command args log_name : String) (spawn : Option Nat)
    (stdout_read stdin_write : Nat) : ProcState :=
  { st with
    command_ := command
    args_ := args
    log_name_ := log_name
    hProcess := spawn.getD 0
    child_std_out_ := stdout_read
    child_std_in_ := stdin_write
    still_active := spawn.isSome
    process_list := st.process_list ++ [spawn.getD 0]
    is_initalized_ := true }

/-- `Process::alive` (lines 73-78): `GetExitCodeProcess` and compare with
`STILL_ACTIVE`. -/
def alive (st : ProcState) : Bool := st.still_active

/-- OS-visible actions of one `Process::killProcess` call: the
`process_list.remove` at line 88, the `TerminateProcess` at line 98, and the
`closeHandles()` at line 102. -/
inductive KEvent where
  | unregister (h : Nat)
  | terminate (h : Nat)
  | closeHandles
deriving DecidableEq

/-- `Process::killProcess` (lines 87-108).  Always removes `pi_.hProcess`
from the registry first (line 88, before the `is_initalized_` check); if
never initialized it returns at once.  Otherwise it terminates the child if
it is still active, closes the handles, and finally sets
`is_initalized_ = false`; any exception from the cleanup is caught and
logged, never propagated.  Returns the new state and the actions performed. -/
def killProcess (st : ProcState) : ProcState × List KEvent :=
  let st1 : ProcState := { st with process_list := st.process_list.filter (fun h => h != st.hProcess) }
  if st1.is_initalized_ = false then (st1, [KEvent.unregister st.hProcess])
  else
    let termEvs := if st1.still_active then [KEvent.terminate st.hProcess] else []
    ({ st1 with still_active := false, is_initalized_ := false },
     KEvent.unregister st.hProcess :: (termEvs ++ [KEvent.closeHandles]))

/-- `Process::restart` (lines 110-113): `killProcess(); init(command_, args_,
log_name_);` — the identity fields are read back from the state left by
`killProcess`.  `spawn`, `stdout_read`, `stdin_write` are the OS outcomes of
the new `init`. -/
def restart (st : ProcState) (spawn : Option Nat) (stdout_read stdin_write : Nat) : ProcState :=
  let st1 := (killProcess st).1
  init st1 st1.command_ st1.args_ st1.log_name_ spawn stdout_read stdin_write

/-- Modelled from the spec's words (claim C9): "`restart()` is equivalent to
`kill()` followed by `init()` with the previously stored command/args/logName"
— the identity fields here are those of the state *before* the kill, i.e. the
values stored by the most recent `init`. -/
def restartSpec (st : ProcState) (spawn : Option Nat) (stdout_read stdin_write : Nat) : ProcState :=
  init (killProcess st).1 st.command_ st.args_ st.log_name_ spawn stdout_read stdin_write

/-- Actions of one `Process::writeProcess` call, in order: the
`Logger::writeToEngine` at line 183, the `killProcess()` at line 186, and the
`WriteFile` to `child_std_in_` at line 190. -/
inductive WEvent where
  | logOutgoing (text : String)
  | killInvoked
  | writeStdin (handle : Nat) (text : String)
deriving DecidableEq

/-- `Process::writeProcess` (lines 181-193).  Logs the outgoing text; if the
child is no longer alive, calls `killProcess()` first; then issues the
`WriteFile` against `child_std_in_` in either case.  `bytesWritten` is the
count the OS reports; the returned boolean is the contract check
`assert(bytesWritten == input.length())` at line 192. -/
def writeProcess (st : ProcState) (input : String) (bytesWritten : Nat) :
    ProcState × List WEvent × Bool :=
  let st1 := if alive st then st else (killProcess st).1
  let evs :=
    if alive st then
      [WEvent.logOutgoing input, WEvent.writeStdin st1.child_std_in_ input]
    else
      [WEvent.logOutgoing input, WEvent.killInvoked,
       WEvent.writeStdin st1.child_std_in_ input]
  (st1, evs, bytesWritten == input.length)

/-- A fresh, never-initialized controller with an empty registry. -/
def freshState : ProcState :=
  { command_ := ""
    args_ := ""
    log_name_ := ""
    is_initalized_ := false
    hProcess := 0
    child_std_out_ := 0
    child_std_in_ := 0
    still_active := false
    process_list := [] }

/-- An initialized controller whose child is alive, used to instantiate
hypotheses at concrete inputs. -/
def liveState : ProcState :=
  { command_ := "engine"
    args_ := ""
    log_name_ := "log"
    is_initalized_ := true
    hProcess := 5
    child_std_out_ := 1
    child_std_in_ := 2
    still_active := true
    process_list := [5] }

/-- C2: the claim says an OS-level read failure before the deadline surfaces
as `Status::ERR`; evaluating the code at such an input shows the async lambda
does return `Status::ERR` (second conjunct), but `readProcess` hands the
caller `Status::OK` (first conjunct), because line 178 returns `Status::OK`
whenever `wait_for` reports the future ready, never retrieving the lambda's
value. -/
theorem readProcess_err_surfaced_as_ok :
    readProcess 100 [none] ['o', 'k'] [] = (Status.OK, []) ∧
    (readLoop ['o', 'k'] [none] [] []).status = some Status.ERR := by
  constructor <;> rfl

/-- C3: the claim says a zero `timeout` waits indefinitely and never yields
`Status::TIMEOUT`; evaluating the code with `threshold = 0` and a child that
has produced nothing by the instant `wait_for(0ms)` polls (no `ReadFile`
completed, so the background task cannot have finished) shows the call
returns `Status::TIMEOUT` immediately. -/
theorem readProcess_zero_threshold_times_out :
    readProcess 0 [] ['o', 'k'] [] = (Status.TIMEOUT, []) := rfl

/-- C4: the claim says a spawn failure makes `init` fail, leave
`is_initalized_ == false` and add no registry entry; evaluating the code at a
failed `CreateProcessA` (`spawn = none`) shows `init` still sets
`is_initalized_ = true` and still pushes the (null) process handle onto the
registry. -/
theorem init_spawn_failure_still_registers :
    (init freshState "bad_cmd" "" "log" none 1 2).is_initalized_ = true ∧
    (init freshState "bad_cmd" "" "log" none 1 2).process_list = [0] := by
  constructor <;> rfl

theorem killProcess_command_ (st : ProcState) : (killProcess st).1.command_ = st.command_ := by
  by_cases h : st.is_initalized_ <;> simp [killProcess, h]

theorem killProcess_args_ (st : ProcState) : (killProcess st).1.args_ = st.args_ := by
  by_cases h : st.is_initalized_ <;> simp [killProcess, h]

theorem killProcess_log_name_ (st : ProcState) : (killProcess st).1.log_name_ = st.log_name_ := by
  by_cases h : st.is_initalized_ <;> simp [killProcess, h]

theorem killProcess_hProcess (st : ProcState) : (killProcess st).1.hProcess = st.hProcess := by
  by_cases h : st.is_initalized_ <;> simp [killProcess, h]

theorem killProcess_child_std_in_ (st : ProcState) :
    (killProcess st).1.child_std_in_ = st.child_std_in_ := by
  by_cases h : st.is_initalized_ <;> simp [killProcess, h]

theorem killProcess_process_list (st : ProcState) :
    (killProcess st).1.process_list = st.process_list.filter (fun h => h != st.hProcess) := by
  by_cases h : st.is_initalized_ <;> simp [killProcess, h]

theorem killProcess_is_initalized_ (st : ProcState) :
    (killProcess st).1.is_initalized_ = false := by
  by_cases h : st.is_initalized_ <;> simp [killProcess, h]

theorem getLastD_cons_of_ne_nil {α : Type _} (a d : α) (l : List α) (h : l ≠ []) :
    (a :: l).getLastD d = l.getLastD d := by
  cases l with
  | nil => exact absurd rfl h
  | cons b l' => simp [List.getLastD_cons]

theorem dropLast_cons_of_ne_nil {α : Type _} (a : α) (l : List α) (h : l ≠ []) :
    (a :: l).dropLast = a :: l.dropLast := by
  cases l with
  | nil => exact absurd rfl h
  | cons b l' => rfl

theorem dropLast_append_of_ne_nil {α : Type _} (l m : List α) (h : m ≠ []) :
    (l ++ m).dropLast = l ++ m.dropLast := by
  induction l with
  | nil => rfl
  | cons a l' ih =>
    have hne : l' ++ m ≠ [] := by simp [List.append_eq_nil, h]
    rw [List.cons_append, dropLast_cons_of_ne_nil _ _ hne, ih, List.cons_append]

theorem getLastD_mem {α : Type _} (l : List α) (d : α) (h : l ≠ []) : l.getLastD d ∈ l := by
  induction l generalizing d with
  | nil => exact absurd rfl h
  | cons a l' ih =>
    cases l' with
    | nil => simp [List.getLastD_cons]
    | cons b l'' =>
      rw [getLastD_cons_of_ne_nil _ _ _ (List.cons_ne_nil b l'')]
      exact List.mem_cons_of_mem a (ih _ (List.cons_ne_nil b l''))

theorem nil_isPrefixOf (l : List Char) : ([] : List Char).isPrefixOf l = true := by
  cases l <;> rfl

theorem splitSegs_ne_nil (cs : List Char) : splitSegs cs ≠ [] := by
  induction cs with
  | nil => simp [splitSegs]
  | cons c rest ih =>
    cases hc : isTerm c with
    | true => simp [splitSegs, hc]
    | false =>
      simp only [splitSegs, hc]
      cases hs : splitSegs rest <;> simp

theorem mergeHead_ne_nil (s : List Char) (l : List (List Char)) : mergeHead s l ≠ [] := by
  cases l <;> simp [mergeHead]

theorem mergeHead_nil_of_ne_nil (l : List (List Char)) (h : l ≠ []) : mergeHead [] l = l := by
  cases l with
  | nil => exact absurd rfl h
  | cons a t => simp [mergeHead]

theorem splitSegs_cons_term (c : Char) (rest : List Char) (hc : isTerm c = true) :
    splitSegs (c :: rest) = [] :: splitSegs rest := by
  simp [splitSegs, hc]

theorem splitSegs_cons_nonterm (c : Char) (rest : List Char) (hc : isTerm c = false)
    (s : List Char) (ss : List (List Char)) (hsp : splitSegs rest = s :: ss) :
    splitSegs (c :: rest) = (c :: s) :: ss := by
  simp [splitSegs, hc, hsp]

theorem splitSegs_of_noTerm (cs : List Char) (h : noTerm cs = true) : splitSegs cs = [cs] := by
  induction cs with
  | nil => rfl
  | cons c rest ih =>
    rw [noTerm, List.all_cons, Bool.and_eq_true] at h
    obtain ⟨h1, h2⟩ := h
    rw [Bool.not_eq_true'] at h1
    rw [splitSegs_cons_nonterm c rest h1 rest [] (ih h2)]

theorem splitSegs_mem_noTerm (cs : List Char) : ∀ s ∈ splitSegs cs, noTerm s = true := by
  induction cs with
  | nil =>
    intro s hs
    simp [splitSegs] at hs
    subst hs
    rfl
  | cons c rest ih =>
    intro s hs
    cases hc : isTerm c with
    | true =>
      rw [splitSegs_cons_term c rest hc] at hs
      rcases List.mem_cons.mp hs with h | h
      · subst h; rfl
      · exact ih s h
    | false =>
      cases hsp : splitSegs rest with
      | nil => exact absurd hsp (splitSegs_ne_nil rest)
      | cons s0 ss =>
        rw [splitSegs_cons_nonterm c rest hc s0 ss hsp] at hs
        have hns0 : noTerm s0 = true := ih s0 (by rw [hsp]; exact List.mem_cons_self _ _)
        rcases List.mem_cons.mp hs with h | h
        · subst h
          rw [noTerm, List.all_cons, Bool.and_eq_true]
          exact ⟨by rw [hc]; rfl, hns0⟩
        · exact ih s (by rw [hsp]; exact List.mem_cons_of_mem _ h)

theorem lastSegOf_noTerm (cs : List Char) : noTerm (lastSegOf cs) = true :=
  splitSegs_mem_noTerm cs _ (getLastD_mem _ _ (splitSegs_ne_nil cs))

theorem lastSegOf_of_noTerm (cs : List Char) (h : noTerm cs = true) : lastSegOf cs = cs := by
  rw [lastSegOf, splitSegs_of_noTerm cs h]
  rfl

theorem splitSegs_append (x t : List Char) :
    splitSegs (x ++ t) = (splitSegs x).dropLast ++ mergeHead (lastSegOf x) (splitSegs t) := by
  induction x with
  | nil =>
    have h0 : lastSegOf [] = ([] : List Char) := rfl
    rw [List.nil_append, h0, mergeHead_nil_of_ne_nil _ (splitSegs_ne_nil t)]
    rfl
  | cons c x' ih =>
    have hne := splitSegs_ne_nil x'
    cases hc : isTerm c with
    | true =>
      have hlast : lastSegOf (c :: x') = lastSegOf x' := by
        rw [lastSegOf, lastSegOf, splitSegs_cons_term c x' hc,
          getLastD_cons_of_ne_nil _ _ _ hne]
      rw [List.cons_append, splitSegs_cons_term c _ hc, splitSegs_cons_term c x' hc, ih,
        hlast, dropLast_cons_of_ne_nil _ _ hne, List.cons_append]
    | false =>
      cases hsp : splitSegs x' with
      | nil => exact absurd hsp hne
      | cons s' ss' =>
        cases ss' with
        | nil =>
          have hlast : lastSegOf x' = s' := by rw [lastSegOf, hsp]; rfl
          cases hst : splitSegs t with
          | nil => exact absurd hst (splitSegs_ne_nil t)
          | cons u us =>
            have h1 : splitSegs (x' ++ t) = (s' ++ u) :: us := by
              rw [ih, hsp, hlast, hst]
              rfl
            have hlast2 : lastSegOf (c :: x') = c :: s' := by
              rw [lastSegOf, splitSegs_cons_nonterm c x' hc s' [] hsp]
              rfl
            rw [List.cons_append, splitSegs_cons_nonterm c _ hc _ _ h1,
              splitSegs_cons_nonterm c x' hc s' [] hsp, hlast2]
            simp [mergeHead]
        | cons s2 ss2 =>
          have hnss : (s2 :: ss2 : List (List Char)) ≠ [] := List.cons_ne_nil _ _
          have hlast : lastSegOf (c :: x') = lastSegOf x' := by
            rw [lastSegOf, lastSegOf, splitSegs_cons_nonterm c x' hc _ _ hsp, hsp,
              getLastD_cons_of_ne_nil _ _ _ hnss, getLastD_cons_of_ne_nil _ _ _ hnss]
          have h1 : splitSegs (x' ++ t) =
              s' :: ((s2 :: ss2).dropLast ++ mergeHead (lastSegOf x') (splitSegs t)) := by
            rw [ih, hsp, dropLast_cons_of_ne_nil _ _ hnss, List.cons_append]
          rw [List.cons_append, splitSegs_cons_nonterm c _ hc _ _ h1,
            splitSegs_cons_nonterm c x' hc _ _ hsp, hlast,
            dropLast_cons_of_ne_nil _ _ hnss, List.cons_append]

theorem splitLinesSpec_of_noTerm (cs : List Char) (h : noTerm cs = true) :
    splitLinesSpec cs = [] := by
  rw [splitLinesSpec, splitSegs_of_noTerm cs h]
  rfl

theorem splitLinesSpec_term_cons (c : Char) (w : List Char) (hc : isTerm c = true) :
    splitLinesSpec (c :: w) = splitLinesSpec w := by
  rw [splitLinesSpec, splitLinesSpec, splitSegs_cons_term c w hc,
    dropLast_cons_of_ne_nil _ _ (splitSegs_ne_nil w), List.filter_cons]
  simp

theorem splitSegs_noTerm_append (cur w : List Char) (h : noTerm cur = true) :
    splitSegs (cur ++ w) = mergeHead cur (splitSegs w) := by
  rw [splitSegs_append, splitSegs_of_noTerm cur h, lastSegOf_of_noTerm cur h]
  rfl

theorem splitSegs_brk (cur : List Char) (c : Char) (w : List Char)
    (hcur : noTerm cur = true) (hc : isTerm c = true) :
    splitSegs (cur ++ c :: w) = cur :: splitSegs w := by
  rw [splitSegs_noTerm_append cur _ hcur, splitSegs_cons_term c w hc, mergeHead,
    List.append_nil]

theorem splitLinesSpec_brk (cur : List Char) (c : Char) (w : List Char)
    (hcur : noTerm cur = true) (hne : cur.isEmpty = false) (hc : isTerm c = true) :
    splitLinesSpec (cur ++ c :: w) = cur :: splitLinesSpec w := by
  rw [splitLinesSpec, splitLinesSpec, splitSegs_brk cur c w hcur hc,
    dropLast_cons_of_ne_nil _ _ (splitSegs_ne_nil w), List.filter_cons, hne]
  rfl

theorem lastSegOf_brk (cur : List Char) (c : Char) (w : List Char)
    (hcur : noTerm cur = true) (hc : isTerm c = true) :
    lastSegOf (cur ++ c :: w) = lastSegOf w := by
  rw [lastSegOf, lastSegOf, splitSegs_brk cur c w hcur hc,
    getLastD_cons_of_ne_nil _ _ _ (splitSegs_ne_nil w)]

theorem splitLinesSpec_append (x t : List Char) :
    splitLinesSpec (x ++ t) = splitLinesSpec x ++ splitLinesSpec (lastSegOf x ++ t) := by
  rw [splitLinesSpec, splitLinesSpec, splitLinesSpec, splitSegs_append x t,
    dropLast_append_of_ne_nil _ _ (mergeHead_ne_nil _ _), List.filter_append,
    splitSegs_noTerm_append _ t (lastSegOf_noTerm x)]

theorem splitLinesSpec_mem_ne_nil (cs : List Char) : ∀ l ∈ splitLinesSpec cs, l ≠ [] := by
  intro l hl
  rw [splitLinesSpec] at hl
  have := (List.mem_filter.mp hl).2
  simp only [Bool.not_eq_true', List.isEmpty_eq_false_iff_exists_mem] at this
  intro hnil
  subst hnil
  simp at this

theorem procChars_cons_nonterm (lw : List Char) (c : Char) (rest cur : List Char)
    (lines : List (List Char)) (hc : isTerm c = false) :
    procChars lw (c :: rest) cur lines = procChars lw rest (cur ++ [c]) lines := by
  simp [procChars, hc]

theorem procChars_cons_term_empty (lw : List Char) (c : Char) (rest cur : List Char)
    (lines : List (List Char)) (hc : isTerm c = true) (he : cur.isEmpty = true) :
    procChars lw (c :: rest) cur lines = procChars lw rest cur lines := by
  simp [procChars, hc, he]

theorem procChars_cons_term_match (lw : List Char) (c : Char) (rest cur : List Char)
    (lines : List (List Char)) (hc : isTerm c = true) (he : cur.isEmpty = false)
    (hp : lw.isPrefixOf cur = true) :
    procChars lw (c :: rest) cur lines = ⟨true, rest, cur, lines ++ [cur]⟩ := by
  simp [procChars, hc, he, hp]

theorem procChars_cons_term_nomatch (lw : List Char) (c : Char) (rest cur : List Char)
    (lines : List (List Char)) (hc : isTerm c = true) (he : cur.isEmpty = false)
    (hp : lw.isPrefixOf cur = false) :
    procChars lw (c :: rest) cur lines = procChars lw rest [] (lines ++ [cur]) := by
  simp [procChars, hc, he, hp]

theorem readLoop_cons_matched (lw chunk : List Char) (evs : List (Option (List Char)))
    (cur : List Char) (lines : List (List Char))
    (hm : (procChars lw chunk cur lines).matched = true) :
    readLoop lw (some chunk :: evs) cur lines =
      ⟨some Status.OK, (procChars lw chunk cur lines).lines⟩ := by
  simp [readLoop, hm]

theorem readLoop_cons_nomatch (lw chunk : List Char) (evs : List (Option (List Char)))
    (cur : List Char) (lines : List (List Char))
    (hm : (procChars lw chunk cur lines).matched = false) :
    readLoop lw (some chunk :: evs) cur lines =
      readLoop lw evs (procChars lw chunk cur lines).currentLine
        (procChars lw chunk cur lines).lines := by
  simp [readLoop, hm]

theorem readProcess_eq_of_some (threshold : Nat) (events : List (Option (List Char)))
    (lw : List Char) (outLines0 : List (List Char)) (s : Status)
    (h : (readLoop lw events [] []).status = some s) :
    readProcess threshold events lw outLines0 =
      (Status.OK, (readLoop lw events [] []).lines) := by
  rw [readProcess]
  simp only [List.take_zero, h]

theorem readProcess_eq_of_none (threshold : Nat) (events : List (Option (List Char)))
    (lw : List Char) (outLines0 : List (List Char))
    (h : (readLoop lw events [] []).status = none) :
    readProcess threshold events lw outLines0 =
      (Status.TIMEOUT, (readLoop lw events [] []).lines) := by
  rw [readProcess]
  simp only [List.take_zero, h]

theorem procChars_matched_last (lw cs : List Char) :
    ∀ cur lines, (procChars lw cs cur lines).matched = true →
      (procChars lw cs cur lines).lines ≠ [] ∧
      lw.isPrefixOf ((procChars lw cs cur lines).lines.getLastD []) = true := by
  induction cs with
  | nil =>
    intro cur lines hm
    simp [procChars] at hm
  | cons c rest ih =>
    intro cur lines hm
    cases hc : isTerm c with
    | false =>
      rw [procChars_cons_nonterm lw c rest cur lines hc] at hm ⊢
      exact ih _ _ hm
    | true =>
      cases he : cur.isEmpty with
      | true =>
        rw [procChars_cons_term_empty lw c rest cur lines hc he] at hm ⊢
        exact ih _ _ hm
      | false =>
        cases hp : lw.isPrefixOf cur with
        | true =>
          rw [procChars_cons_term_match lw c rest cur lines hc he hp]
          refine ⟨by simp, ?_⟩
          rw [List.getLastD_concat]
          exact hp
        | false =>
          rw [procChars_cons_term_nomatch lw c rest cur lines hc he hp] at hm ⊢
          exact ih _ _ hm

theorem procChars_no_match_inv (lw cs : List Char) :
    ∀ cur lines, (∀ l ∈ lines, lw.isPrefixOf l = false) →
      (procChars lw cs cur lines).matched = false →
      ∀ l ∈ (procChars lw cs cur lines).lines, lw.isPrefixOf l = false := by
  induction cs with
  | nil =>
    intro cur lines hinv _
    simpa [procChars] using hinv
  | cons c rest ih =>
    intro cur lines hinv hm
    cases hc : isTerm c with
    | false =>
      rw [procChars_cons_nonterm lw c rest cur lines hc] at hm ⊢
      exact ih _ _ hinv hm
    | true =>
      cases he : cur.isEmpty with
      | true =>
        rw [procChars_cons_term_empty lw c rest cur lines hc he] at hm ⊢
        exact ih _ _ hinv hm
      | false =>
        cases hp : lw.isPrefixOf cur with
        | true =>
          rw [procChars_cons_term_match lw c rest cur lines hc he hp] at hm
          simp at hm
        | false =>
          rw [procChars_cons_term_nomatch lw c rest cur lines hc he hp] at hm ⊢
          refine ih _ _ ?_ hm
          intro l hl
          rcases List.mem_append.mp hl with h | h
          · exact hinv l h
          · rw [List.mem_singleton.mp h]
            exact hp

theorem procChars_split (lw cs : List Char) :
    ∀ cur lines, noTerm cur = true →
      ∃ p q, cs = p ++ q ∧
        (procChars lw cs cur lines).remaining = q ∧
        (procChars lw cs cur lines).lines = lines ++ splitLinesSpec (cur ++ p) ∧
        ((procChars lw cs cur lines).matched = false →
          q = [] ∧ (procChars lw cs cur lines).currentLine = lastSegOf (cur ++ cs) ∧
          noTerm (procChars lw cs cur lines).currentLine = true) := by
  induction cs with
  | nil =>
    intro cur lines hcur
    refine ⟨[], [], rfl, rfl, ?_, ?_⟩
    · rw [List.append_nil, splitLinesSpec_of_noTerm cur hcur, List.append_nil]
      rfl
    · intro _
      refine ⟨rfl, ?_, ?_⟩
      · rw [List.append_nil, lastSegOf_of_noTerm cur hcur]
        rfl
      · exact hcur
  | cons c rest ih =>
    intro cur lines hcur
    cases hc : isTerm c with
    | false =>
      have hcur' : noTerm (cur ++ [c]) = true := by
        rw [noTerm, List.all_append]
        rw [noTerm] at hcur
        simp [hcur, hc]
      obtain ⟨p', q', hpq, hrem, hlines, hnm⟩ := ih (cur ++ [c]) lines hcur'
      rw [procChars_cons_nonterm lw c rest cur lines hc]
      refine ⟨c :: p', q', by rw [hpq]; rfl, hrem, ?_, ?_⟩
      · rw [hlines, List.append_assoc, List.singleton_append]
      · intro hm
        obtain ⟨hq, hcl, hnt⟩ := hnm hm
        refine ⟨hq, ?_, hnt⟩
        rw [hcl, List.append_assoc, List.singleton_append]
    | true =>
      cases he : cur.isEmpty with
      | true =>
        cases cur with
        | cons a cur' => simp at he
        | nil =>
          rw [procChars_cons_term_empty lw c rest [] lines hc rfl]
          obtain ⟨p', q', hpq, hrem, hlines, hnm⟩ := ih [] lines rfl
          refine ⟨c :: p', q', by rw [hpq]; rfl, hrem, ?_, ?_⟩
          · rw [hlines, List.nil_append, List.nil_append,
              splitLinesSpec_term_cons c p' hc]
          · intro hm
            obtain ⟨hq, hcl, hnt⟩ := hnm hm
            refine ⟨hq, ?_, hnt⟩
            have hb := lastSegOf_brk [] c rest rfl hc
            rw [List.nil_append] at hb
            rw [hcl, List.nil_append, List.nil_append, hb]
      | false =>
        cases hp : lw.isPrefixOf cur with
        | true =>
          rw [procChars_cons_term_match lw c rest cur lines hc he hp]
          refine ⟨[c], rest, rfl, rfl, ?_, ?_⟩
          · rw [splitLinesSpec_brk cur c [] hcur he hc]
            rfl
          · intro hm
            simp at hm
        | false =>
          rw [procChars_cons_term_nomatch lw c rest cur lines hc he hp]
          obtain ⟨p', q', hpq, hrem, hlines, hnm⟩ := ih [] (lines ++ [cur]) rfl
          refine ⟨c :: p', q', by rw [hpq]; rfl, hrem, ?_, ?_⟩
          · rw [hlines, List.nil_append, splitLinesSpec_brk cur c p' hcur he hc,
              List.append_assoc]
            rfl
          · intro hm
            obtain ⟨hq, hcl, hnt⟩ := hnm hm
            refine ⟨hq, ?_, hnt⟩
            rw [hcl, List.nil_append, lastSegOf_brk cur c rest hcur hc]

theorem procChars_nil_lw (cs : List Char) :
    ∀ cur lines,
      ((procChars [] cs cur lines).matched = false →
        (procChars [] cs cur lines).lines = lines) ∧
      ((procChars [] cs cur lines).matched = true →
        ∃ x, (procChars [] cs cur lines).lines = lines ++ [x]) := by
  induction cs with
  | nil =>
    intro cur lines
    exact ⟨fun _ => rfl, fun hm => by simp [procChars] at hm⟩
  | cons c rest ih =>
    intro cur lines
    cases hc : isTerm c with
    | false =>
      rw [procChars_cons_nonterm [] c rest cur lines hc]
      exact ih _ _
    | true =>
      cases he : cur.isEmpty with
      | true =>
        rw [procChars_cons_term_empty [] c rest cur lines hc he]
        exact ih _ _
      | false =>
        rw [procChars_cons_term_match [] c rest cur lines hc he (nil_isPrefixOf cur)]
        exact ⟨fun hm => by simp at hm, fun _ => ⟨cur, rfl⟩⟩

theorem readLoop_some_ok (lw : List Char) (chunks : List (List Char)) :
    ∀ cur lines s, (readLoop lw (chunks.map some) cur lines).status = some s →
      s = Status.OK ∧ (readLoop lw (chunks.map some) cur lines).lines ≠ [] ∧
      lw.isPrefixOf ((readLoop lw (chunks.map some) cur lines).lines.getLastD []) = true := by
  induction chunks with
  | nil =>
    intro cur lines s hst
    simp [readLoop] at hst
  | cons chunk rest ih =>
    intro cur lines s hst
    rw [List.map_cons] at hst ⊢
    cases hm : (procChars lw chunk cur lines).matched with
    | true =>
      rw [readLoop_cons_matched lw chunk (rest.map some) cur lines hm] at hst ⊢
      obtain ⟨hne, hlast⟩ := procChars_matched_last lw chunk cur lines hm
      have hs : Status.OK = s := by simpa using hst
      exact ⟨hs.symm, hne, hlast⟩
    | false =>
      rw [readLoop_cons_nomatch lw chunk (rest.map some) cur lines hm] at hst ⊢
      exact ih _ _ s hst

theorem readLoop_none_inv (lw : List Char) (events : List (Option (List Char))) :
    ∀ cur lines, (∀ l ∈ lines, lw.isPrefixOf l = false) →
      (readLoop lw events cur lines).status = none →
      ∀ l ∈ (readLoop lw events cur lines).lines, lw.isPrefixOf l = false := by
  induction events with
  | nil =>
    intro cur lines hinv _
    simpa [readLoop] using hinv
  | cons ev rest ih =>
    intro cur lines hinv hst
    cases ev with
    | none => simp [readLoop] at hst
    | some chunk =>
      cases hm : (procChars lw chunk cur lines).matched with
      | true =>
        rw [readLoop_cons_matched lw chunk rest cur lines hm] at hst
        simp at hst
      | false =>
        rw [readLoop_cons_nomatch lw chunk rest cur lines hm] at hst ⊢
        exact ih _ _ (procChars_no_match_inv lw chunk cur lines hinv hm) hst

theorem readLoop_split (lw : List Char) (chunks : List (List Char)) :
    ∀ cur lines, noTerm cur = true →
      ∃ p q, chunks.flatten = p ++ q ∧
        (readLoop lw (chunks.map some) cur lines).lines =
          lines ++ splitLinesSpec (cur ++ p) ∧
        ((readLoop lw (chunks.map some) cur lines).status = none → q = []) := by
  induction chunks with
  | nil =>
    intro cur lines hcur
    refine ⟨[], [], rfl, ?_, fun _ => rfl⟩
    rw [List.append_nil, splitLinesSpec_of_noTerm cur hcur, List.append_nil]
    rfl
  | cons chunk rest ih =>
    intro cur lines hcur
    obtain ⟨p1, q1, hpq1, hrem1, hlines1, hnm1⟩ := procChars_split lw chunk cur lines hcur
    rw [List.map_cons]
    cases hm : (procChars lw chunk cur lines).matched with
    | true =>
      rw [readLoop_cons_matched lw chunk (rest.map some) cur lines hm]
      refine ⟨p1, q1 ++ rest.flatten, ?_, hlines1, ?_⟩
      · rw [List.flatten_cons, hpq1, List.append_assoc]
      · intro hst
        simp at hst
    | false =>
      obtain ⟨hq1, hcl, hnt⟩ := hnm1 hm
      rw [readLoop_cons_nomatch lw chunk (rest.map some) cur lines hm]
      obtain ⟨p2, q2, hpq2, hlines2, hnone2⟩ := ih _ _ hnt
      rw [hq1, List.append_nil] at hpq1
      refine ⟨chunk ++ p2, q2, ?_, ?_, ?_⟩
      · rw [List.flatten_cons, hpq2, List.append_assoc]
      · rw [hlines2, hlines1, hcl, ← hpq1, ← List.append_assoc cur chunk p2,
          splitLinesSpec_append (cur ++ chunk) p2, List.append_assoc]
      · intro hst
        exact hnone2 hst

theorem readLoop_nil_lw (chunks : List (List Char)) :
    ∀ cur lines,
      ((readLoop [] (chunks.map some) cur lines).status = none →
        (readLoop [] (chunks.map some) cur lines).lines = lines) ∧
      (∀ s, (readLoop [] (chunks.map some) cur lines).status = some s →
        ∃ x, (readLoop [] (chunks.map some) cur lines).lines = lines ++ [x]) := by
  induction chunks with
  | nil =>
    intro cur lines
    exact ⟨fun _ => rfl, fun s hs => by simp [readLoop] at hs⟩
  | cons chunk rest ih =>
    intro cur lines
    rw [List.map_cons]
    cases hm : (procChars [] chunk cur lines).matched with
    | true =>
      rw [readLoop_cons_matched [] chunk (rest.map some) cur lines hm]
      exact ⟨fun hst => by simp at hst,
        fun s _ => (procChars_nil_lw chunk cur lines).2 hm⟩
    | false =>
      rw [readLoop_cons_nomatch [] chunk (rest.map some) cur lines hm]
      rw [(procChars_nil_lw chunk cur lines).1 hm]
      exact ih _ _

/-- C1: over an error-free byte stream delivered before the deadline (the
chunks are the successive `ReadFile` buffers), `readProcess` returns
`Status::OK` exactly when some line it appended to the output starts with
`last_word`, and in that case the matching line is the last element of the
output for that call. -/
theorem read_ok_iff_terminator_line (lw : List Char) (chunks : List (List Char))
    (threshold : Nat) (outLines0 : List (List Char)) :
    ((readProcess threshold (chunks.map some) lw outLines0).1 = Status.OK ↔
      ∃ l ∈ (readProcess threshold (chunks.map some) lw outLines0).2,
        lw.isPrefixOf l = true) ∧
    ((readProcess threshold (chunks.map some) lw outLines0).1 = Status.OK →
      (readProcess threshold (chunks.map some) lw outLines0).2 ≠ [] ∧
      lw.isPrefixOf
        ((readProcess threshold (chunks.map some) lw outLines0).2.getLastD []) = true) := by
  cases hst : (readLoop lw (chunks.map some) [] []).status with
  | some s =>
    rw [readProcess_eq_of_some threshold _ lw outLines0 s hst]
    obtain ⟨_, hne, hlast⟩ := readLoop_some_ok lw chunks [] [] s hst
    exact ⟨⟨fun _ => ⟨_, getLastD_mem _ _ hne, hlast⟩, fun _ => rfl⟩,
      fun _ => ⟨hne, hlast⟩⟩
  | none =>
    rw [readProcess_eq_of_none threshold _ lw outLines0 hst]
    have hinv := readLoop_none_inv lw (chunks.map some) [] []
      (by intro l hl; simp at hl) hst
    constructor
    · constructor
      · intro h
        exact absurd h (by simp)
      · rintro ⟨l, hl, hp⟩
        rw [hinv l hl] at hp
        exact absurd hp (by simp)
    · intro h
      exact absurd h (by simp)

/-- C7: the output vector is cleared and then holds exactly the non-empty
maximal terminator-delimited runs of the byte sequence the loop consumed — a
prefix `p` of the full stream, all of it when the call timed out — in the
exact order produced; empty lines never appear. -/
theorem read_lines_are_delimited_runs (lw : List Char) (chunks : List (List Char))
    (threshold : Nat) (outLines0 : List (List Char)) :
    ∃ p q, chunks.flatten = p ++ q ∧
      (readProcess threshold (chunks.map some) lw outLines0).2 = splitLinesSpec p ∧
      ((readProcess threshold (chunks.map some) lw outLines0).1 = Status.TIMEOUT →
        q = []) ∧
      ∀ l ∈ (readProcess threshold (chunks.map some) lw outLines0).2, l ≠ [] := by
  obtain ⟨p, q, hpq, hlines, hnone⟩ := readLoop_split lw chunks [] [] rfl
  simp only [List.nil_append] at hlines
  cases hst : (readLoop lw (chunks.map some) [] []).status with
  | some s =>
    rw [readProcess_eq_of_some threshold _ lw outLines0 s hst]
    refine ⟨p, q, hpq, hlines, ?_, ?_⟩
    · intro h
      exact absurd h (by simp)
    · intro l hl
      rw [hlines] at hl
      exact splitLinesSpec_mem_ne_nil p l hl
  | none =>
    rw [readProcess_eq_of_none threshold _ lw outLines0 hst]
    refine ⟨p, q, hpq, hlines, fun _ => hnone hst, ?_⟩
    intro l hl
    rw [hlines] at hl
    exact splitLinesSpec_mem_ne_nil p l hl

/-- C10: with an empty `last_word` every completed non-empty line matches, so
over an error-free stream that contains at least one complete non-empty line
the read returns `Status::OK` with exactly the first such line as the whole
output. -/
theorem read_empty_lastword_stops_at_first_line (chunks : List (List Char))
    (threshold : Nat) (outLines0 : List (List Char))
    (h : splitLinesSpec chunks.flatten ≠ []) :
    readProcess threshold (chunks.map some) [] outLines0 =
      (Status.OK, [(splitLinesSpec chunks.flatten).headD []]) := by
  obtain ⟨p, q, hpq, hlines, hnone⟩ := readLoop_split [] chunks [] [] rfl
  simp only [List.nil_append] at hlines
  cases hst : (readLoop [] (chunks.map some) [] []).status with
  | none =>
    exfalso
    have hq := hnone hst
    have hl := (readLoop_nil_lw chunks [] []).1 hst
    rw [hl] at hlines
    rw [hq, List.append_nil] at hpq
    rw [hpq] at h
    exact h hlines.symm
  | some s =>
    rw [readProcess_eq_of_some threshold _ [] outLines0 s hst]
    obtain ⟨x, hx⟩ := (readLoop_nil_lw chunks [] []).2 s hst
    rw [List.nil_append] at hx
    have hsp : splitLinesSpec p = [x] := by rw [← hlines, hx]
    have hhead : (splitLinesSpec chunks.flatten).headD [] = x := by
      rw [hpq, splitLinesSpec_append p q, hsp]
      rfl
    rw [hx, hhead]

/-- Witness for C10 at a concrete two-chunk stream. -/
theorem read_empty_lastword_stops_at_first_line_witness :
    splitLinesSpec (List.flatten [['h', 'i', '\n'], ['y', 'o', '\n']]) ≠ [] ∧
    readProcess 7 ([['h', 'i', '\n'], ['y', 'o', '\n']].map some) [] [] =
      (Status.OK,
       [(splitLinesSpec (List.flatten [['h', 'i', '\n'], ['y', 'o', '\n']])).headD []]) :=
  ⟨by decide, read_empty_lastword_stops_at_first_line [['h', 'i', '\n'], ['y', 'o', '\n']]
    7 [] (by decide)⟩

/-- C5: after any `init()` the child's process handle is present in the
registry, and after any `kill()` it is absent, regardless of the controller's
prior state — `killProcess` removes the entry before the `is_initalized_`
check, so this holds even for a never-initialized controller. -/
theorem init_registers_and_kill_unregisters (st : ProcState) (cmd args ln : String)
    (spawn : Option Nat) (stdout_read stdin_write : Nat) :
    (init st cmd args ln spawn stdout_read stdin_write).hProcess ∈
      (init st cmd args ln spawn stdout_read stdin_write).process_list ∧
    st.hProcess ∉ (killProcess st).1.process_list := by
  constructor
  · simp [init]
  · rw [killProcess_process_list]
    intro hmem
    have := (List.mem_filter.mp hmem).2
    simp at this

/-- C6: `kill()` is idempotent — a second `killProcess` leaves the state of
the first unchanged, performs only the (no-op) registry removal and hence
closes no handle and terminates no process a second time — and every
`killProcess` leaves `is_initalized_ = false`. -/
theorem killProcess_idempotent (st : ProcState) :
    (killProcess (killProcess st).1).1 = (killProcess st).1 ∧
    (killProcess (killProcess st).1).2 = [KEvent.unregister st.hProcess] ∧
    (killProcess st).1.is_initalized_ = false := by
  obtain ⟨c, a, l, ini, hp, o, i, act, pl⟩ := st
  cases ini <;>
    simp [killProcess, List.filter_filter]

/-- C8: with `is_initalized_ = true`, `writeProcess` first logs the outgoing
text, invokes `killProcess` before the write exactly when the child is no
longer alive, still issues the `WriteFile` of the raw bytes against the
stdin handle in either case (as the last action), and its contract check
holds exactly when the number of bytes written equals the length of the
text. -/
theorem writeProcess_logs_kills_then_writes (st : ProcState) (input : String)
    (bytesWritten : Nat) (h : st.is_initalized_ = true) :
    ((writeProcess st input bytesWritten).2.1.head? = some (WEvent.logOutgoing input)) ∧
    (alive st = false → (writeProcess st input bytesWritten).2.1 =
      [WEvent.logOutgoing input, WEvent.killInvoked,
       WEvent.writeStdin st.child_std_in_ input]) ∧
    (alive st = true → (writeProcess st input bytesWritten).2.1 =
      [WEvent.logOutgoing input, WEvent.writeStdin st.child_std_in_ input]) ∧
    ((writeProcess st input bytesWritten).2.2 = true ↔ bytesWritten = input.length) := by
  cases halive : alive st <;>
    simp [writeProcess, halive, killProcess_child_std_in_]

/-- Witness for C8 at a concrete initialized controller with a live child. -/
theorem writeProcess_logs_kills_then_writes_witness :
    liveState.is_initalized_ = true ∧
    (((writeProcess liveState "hi" 2).2.1.head? = some (WEvent.logOutgoing "hi")) ∧
     (alive liveState = false → (writeProcess liveState "hi" 2).2.1 =
       [WEvent.logOutgoing "hi", WEvent.killInvoked,
        WEvent.writeStdin liveState.child_std_in_ "hi"]) ∧
     (alive liveState = true → (writeProcess liveState "hi" 2).2.1 =
       [WEvent.logOutgoing "hi", WEvent.writeStdin liveState.child_std_in_ "hi"]) ∧
     ((writeProcess liveState "hi" 2).2.2 = true ↔ 2 = "hi".length)) :=
  ⟨rfl, writeProcess_logs_kills_then_writes liveState "hi" 2 rfl⟩

/-- C9: `restart()` equals `kill()` followed by `init()` with the command,
args and log name stored by the most recent `init()` (the fields of the
pre-kill state), because `killProcess` leaves those identity fields
unchanged. -/
theorem restart_eq_kill_then_init (st : ProcState) (spawn : Option Nat)
    (stdout_read stdin_write : Nat) :
    restart st spawn stdout_read stdin_write = restartSpec st spawn stdout_read stdin_write ∧
    (killProcess st).1.command_ = st.command_ ∧
    (killProcess st).1.args_ = st.args_ ∧
    (killProcess st).1.log_name_ = st.log_name_ := by
  refine ⟨?_, killProcess_command_ st, killProcess_args_ st, killProcess_log_name_ st⟩
  simp only [restart, restartSpec, killProcess_command_, killProcess_args_,
    killProcess_log_name_]

end Process
